import Mathlib

/-!
Verification of the dual-source audio synchronization/mixing pipeline of
omni-meeting-recorder against its natural-language specification.

The embedding translates the Python source:
  * `src/omr/backends/wasapi.py` — `record_dual_to_file` and its nested
    helpers `to_mono`, `resample_simple`, `calc_rms`, `apply_gain`,
    `mic_reader_thread`, `loopback_reader_thread`, `recording_loop`;
  * `src/omr/core/aec_processor.py` — `AECProcessor.process_samples`.

Embedding conventions:
  * 16-bit PCM samples are `ℤ` (Python ints are unbounded; the code clamps
    to the signed 16-bit range before byte packing, so nothing overflows).
  * Python floats are embedded as exact rationals `ℚ`.  The only float
    operation with no exact rational counterpart is the square root inside
    `calc_rms` (`(sum_sq / len) ** 0.5`); it is passed in as an explicit
    parameter `sq : ℚ → ℚ`, and every theorem below holds for every `sq`,
    in particular for (any rational approximation of) the true square root.
  * Python `int(x)` truncates toward zero, embedded as `truncQ`.
  * Python `//` is floor division, embedded as `Int.fdiv`.
  * The opaque pyaec echo-cancellation service (`self._aec.cancel`) is out
    of scope per the spec and is passed in as a parameter
    `cancel : List ℤ → List ℤ → List ℤ`.
  * Byte packing/unpacking (`struct.pack`/`struct.unpack` of little-endian
    int16) is not modelled: workers produce and the loop consumes sample
    lists directly.  One emitted stereo sample-pair is two consecutive
    samples of the output list.
-/

/-- Python `int(x)` on a float: truncation toward zero, on `ℚ`. -/
def truncQ (q : ℚ) : ℤ := if q < 0 then ⌈q⌉ else ⌊q⌋

/-- Final output clamp `max(-32768, min(32767, s))` from
`recording_loop` (wasapi.py line 506). -/
def clamp16 (s : ℤ) : ℤ := max (-32768) (min 32767 s)

/-- Embedding of `to_mono` (wasapi.py lines 309-327): down-mix interleaved multi-channel
samples to mono.  With `use_left_only` the first channel of each frame is
kept (the loopback path); otherwise the channels are averaged with Python
floor division `//` (the mic path).  `channels = 0` would raise in Python
(`range` step 0) and is never reached; here it yields `[]`. -/
def to_mono (samples : List ℤ) (channels : ℕ) (use_left_only : Bool) : List ℤ :=
  if channels = 1 then samples
  else
    (List.range (samples.length / channels)).map (fun k =>
      if use_left_only then samples.getD (k * channels) 0
      else Int.fdiv (((samples.drop (k * channels)).take channels).sum) channels)

/-- Embedding of `resample_simple` (wasapi.py lines 329-347): single-pass
linear-interpolation resampler.  The float ratio arithmetic is carried out
exactly in `ℚ`.  `from_rate = 0` with `to_rate ≠ from_rate` would raise
`ZeroDivisionError` in Python and is never reached; here `ℚ` division by
zero makes the output empty. -/
def resample_simple (samples : List ℤ) (from_rate to_rate : ℕ) : List ℤ :=
  if from_rate = to_rate ∨ samples = [] then samples
  else
    let r : ℚ := (to_rate : ℚ) / (from_rate : ℚ)
    let new_length : ℕ := (⌊(samples.length : ℚ) * r⌋).toNat
    if new_length = 0 then []
    else
      (List.range new_length).map (fun (i : ℕ) =>
        let pos : ℚ := (i : ℚ) / r
        let idx : ℕ := (⌊pos⌋).toNat
        let frac : ℚ := pos - (idx : ℚ)
        if idx + 1 < samples.length then
          truncQ ((samples.getD idx 0 : ℚ) * (1 - frac) + (samples.getD (idx + 1) 0 : ℚ) * frac)
        else if idx < samples.length then samples.getD idx 0
        else 0)

/-- Per-sample body of `apply_gain` (wasapi.py lines 356-367): scale by the
float gain, clamp the scaled float to the signed 16-bit range, truncate
with `int(...)`. -/
def gainSample (gain : ℚ) (s : ℤ) : ℤ :=
  let val : ℚ := (s : ℚ) * gain
  if 32767 < val then 32767
  else if val < -32768 then -32768
  else truncQ val

/-- Embedding of `apply_gain` (wasapi.py lines 356-367): apply `gainSample` to every
sample. -/
def apply_gain (samples : List ℤ) (gain : ℚ) : List ℤ :=
  samples.map (gainSample gain)

/-- Embedding of `calc_rms` (wasapi.py lines 349-354): RMS of a chunk, `0.0` for an
empty chunk.  The float square root `(sum_sq / len) ** 0.5` is the
parameter `sq`. -/
def calc_rms (sq : ℚ → ℚ) (samples : List ℤ) : ℚ :=
  if samples.isEmpty then 0
  else sq ((samples.map (fun (s : ℤ) => (s : ℚ) * (s : ℚ))).sum / (samples.length : ℚ))

/-- Constant `agc_window = 50` (wasapi.py line 372): capacity of each RMS history. -/
def agc_window : ℕ := 50

/-- Constant `mic_target_rms = 16000.0` (wasapi.py line 374). -/
def mic_target_rms : ℚ := 16000

/-- Constant `loopback_target_rms = 8000.0` (wasapi.py line 373). -/
def loopback_target_rms : ℚ := 8000

/-- RMS-history update (wasapi.py lines 465-472): append the chunk RMS when
it exceeds the per-source noise floor (`50` for mic, `100` for loopback),
then `pop(0)` the oldest entry if the history exceeds `agc_window`
entries. -/
def updateHistory (hist : List ℚ) (rms floor_val : ℚ) : List ℚ :=
  if floor_val < rms then
    let h := hist ++ [rms]
    if agc_window < h.length then h.drop 1 else h
  else hist

/-- Mic gain stage (wasapi.py lines 474-482): when the (already updated)
RMS history is non-empty and its average exceeds 50, scale the chunk by
`clamp(mic_target_rms / avg, 0.5, 12.0) * mic_gain`; otherwise the chunk
passes through unchanged — in particular the user gain multiplier is not
applied. -/
def micGainStage (hist : List ℚ) (chunk : List ℤ) (mic_gain : ℚ) : List ℤ :=
  if hist.isEmpty then chunk
  else
    let avg : ℚ := hist.sum / (hist.length : ℚ)
    if 50 < avg then
      apply_gain chunk (max (1 / 2) (min 12 (mic_target_rms / avg)) * mic_gain)
    else chunk

/-- Loopback gain stage (wasapi.py lines 484-492): as `micGainStage` but
with target `loopback_target_rms`, upper clamp `6.0`, and the user
`loopback_gain` multiplier.  The source compares the average against `50`
here as well (line 487). -/
def loopbackGainStage (hist : List ℚ) (chunk : List ℤ) (loopback_gain : ℚ) : List ℤ :=
  if hist.isEmpty then chunk
  else
    let avg : ℚ := hist.sum / (hist.length : ℚ)
    if 50 < avg then
      apply_gain chunk (max (1 / 2) (min 6 (loopback_target_rms / avg)) * loopback_gain)
    else chunk

/-- Mic slice of one assembly cycle (wasapi.py lines 445-451): take
`chunk_size` samples from the front of the mic accumulation buffer if
enough are available, otherwise take everything and zero-pad up to
`chunk_size`.  Returns the slice and the remaining buffer. -/
def micSlicePad (mic_buffer : List ℤ) (chunk_size : ℕ) : List ℤ × List ℤ :=
  if chunk_size ≤ mic_buffer.length then
    (mic_buffer.take chunk_size, mic_buffer.drop chunk_size)
  else
    (mic_buffer ++ List.replicate (chunk_size - mic_buffer.length) 0, [])

/-- Interleaving loop of `recording_loop` (wasapi.py lines 495-504): for
each `i < chunk_size` emit `[mic_val, loop_val]` in stereo-split mode, or
the duplicated mix `int(mic_val*w + loop_val*(1-w))` in mixed mode, where
a missing index reads as `0`. -/
def interleaveOutput (mic_chunk loopback_chunk : List ℤ) (chunk_size : ℕ)
    (stereo_split : Bool) (w : ℚ) : List ℤ :=
  (List.range chunk_size).flatMap (fun (i : ℕ) =>
    let mic_val := mic_chunk.getD i 0
    let loop_val := loopback_chunk.getD i 0
    if stereo_split then [mic_val, loop_val]
    else
      let mixed := truncQ ((mic_val : ℚ) * w + (loop_val : ℚ) * (1 - w))
      [mixed, mixed])

/-- Interleaved output after the final clamp (wasapi.py line 506). -/
def interleaveClamped (mic_chunk loopback_chunk : List ℤ) (chunk_size : ℕ)
    (stereo_split : Bool) (w : ℚ) : List ℤ :=
  (interleaveOutput mic_chunk loopback_chunk chunk_size stereo_split w).map clamp16

/-- State of `AECProcessor` (aec_processor.py lines 60-73): the fixed
algorithm frame size and the three accumulation buffers. -/
structure AECState where
  frame_size : ℕ
  mic_buffer : List ℤ
  ref_buffer : List ℤ
  output_buffer : List ℤ

/-- Frame loop of `AECProcessor.process_samples` (aec_processor.py lines
107-120): while both buffers hold at least `frame_size` samples, slice one
frame from each, run the opaque service `cancel` on the pair, and append
its output to the accumulator.  The final `ℕ` is ghost instrumentation
counting the service invocations (one per loop iteration).  `frame_size =
0` cannot occur (the caller uses `max(160, rate // 100)`); the Python loop
would not terminate there, so the guard requires `0 < frame_size`. -/
def processFrames (cancel : List ℤ → List ℤ → List ℤ) (fs : ℕ)
    (mic ref out : List ℤ) (n : ℕ) : List ℤ × List ℤ × List ℤ × ℕ :=
  if h : 0 < fs ∧ fs ≤ mic.length ∧ fs ≤ ref.length then
    processFrames cancel fs (mic.drop fs) (ref.drop fs)
      (out ++ cancel (mic.take fs) (ref.take fs)) (n + 1)
  else (mic, ref, out, n)
termination_by mic.length
decreasing_by
  have : 0 < mic.length := lt_of_lt_of_le h.1 h.2.1
  simp only [List.length_drop]
  omega

/-- Embedding of `AECProcessor.process_samples` (aec_processor.py lines 85-125): append
both inputs to the leftover buffers, process complete frames, return the
accumulated output and clear it.  The final `ℕ` counts service
invocations (ghost). -/
def process_samples (cancel : List ℤ → List ℤ → List ℤ) (st : AECState)
    (micIn refIn : List ℤ) : List ℤ × AECState × ℕ :=
  let pf := processFrames cancel st.frame_size (st.mic_buffer ++ micIn)
    (st.ref_buffer ++ refIn) st.output_buffer 0
  (pf.2.2.1, ⟨st.frame_size, pf.1, pf.2.1, []⟩, pf.2.2.2)

/-- Fold a sequence of `process_samples` calls, collecting each call's
returned output and the total number of service invocations. -/
def runCalls (cancel : List ℤ → List ℤ → List ℤ) (st : AECState) :
    List (List ℤ × List ℤ) → List (List ℤ) × AECState × ℕ
  | [] => ([], st, 0)
  | (m, r) :: rest =>
    let p := process_samples cancel st m r
    let q := runCalls cancel p.2.1 rest
    (p.1 :: q.1, q.2.1, p.2.2 + q.2.2)

/-- Decidable transcription of C8's hypothesis: along the call sequence,
every call leaves both accumulated leftover buffers strictly below one
algorithm frame (so the buffers only ever grow by appending). -/
def stepsBelow (fs : ℕ) : List ℤ → List ℤ → List (List ℤ × List ℤ) → Bool
  | _, _, [] => true
  | micAcc, refAcc, (m, r) :: rest =>
    if (micAcc ++ m).length < fs ∧ (refAcc ++ r).length < fs then
      stepsBelow fs (micAcc ++ m) (refAcc ++ r) rest
    else false

/-- Per-session mixer configuration (arguments of `record_dual_to_file`,
wasapi.py lines 234-247): output layout, mix weight (`mix_ratio` in the
source), and the two user gain multipliers. -/
structure MixConfig where
  stereo_split : Bool
  mix_w : ℚ
  mic_gain : ℚ
  loopback_gain : ℚ

/-- Mutable state of `recording_loop` (wasapi.py lines 369-374, 405-407):
the two accumulation buffers, the two RMS histories, and the optional AEC
processor (`some` iff echo cancellation is enabled and available). -/
structure MixState where
  mic_buffer : List ℤ
  loopback_buffer : List ℤ
  mic_rms_history : List ℚ
  loopback_rms_history : List ℚ
  aec : Option AECState

/-- One assembly cycle of `recording_loop` (wasapi.py lines 425-515),
after the queues have been drained into the buffers: `none` is the
idle-sleep branch (empty loopback buffer, line 512-515); otherwise the
loopback buffer's full length is the cycle's `chunk_size`, the mic buffer
is sliced/zero-padded to match, AEC runs if enabled, the RMS histories are
updated, both gain stages run, and the interleaved clamped frame is
emitted together with the successor state. -/
def recordingCycle (sq : ℚ → ℚ) (cancel : List ℤ → List ℤ → List ℤ)
    (cfg : MixConfig) (st : MixState) : Option (List ℤ × MixState) :=
  if st.loopback_buffer.isEmpty then none
  else
    let chunk_size := st.loopback_buffer.length
    let loopback_chunk := st.loopback_buffer
    let sp := micSlicePad st.mic_buffer chunk_size
    let afterAec : List ℤ × Option AECState :=
      match st.aec with
      | none => (sp.1, none)
      | some a =>
        let pr := process_samples cancel a sp.1 loopback_chunk
        (pr.1, some pr.2.1)
    let mic_chunk := afterAec.1
    let mic_rms := calc_rms sq mic_chunk
    let loopback_rms := calc_rms sq loopback_chunk
    let micHist := updateHistory st.mic_rms_history mic_rms 50
    let loopHist := updateHistory st.loopback_rms_history loopback_rms 100
    let mic_out := micGainStage micHist mic_chunk cfg.mic_gain
    let loop_out := loopbackGainStage loopHist loopback_chunk cfg.loopback_gain
    let output := interleaveClamped mic_out loop_out chunk_size cfg.stereo_split cfg.mix_w
    some (output, ⟨sp.2, [], micHist, loopHist, afterAec.2⟩)

/-- Observable per-iteration outcome of a Capture Worker loop.
`propagated` (an uncaught exception escaping the thread body) is
expressible but — as proved below — never produced by either reader. -/
inductive ReaderOutcome where
  | terminated : ReaderOutcome
  | enqueued : List ℤ → ReaderOutcome
  | retried : ReaderOutcome
  | propagated : ReaderOutcome
deriving DecidableEq

/-- One iteration of `mic_reader_thread` (wasapi.py lines 376-389):
observe the stop flag at the loop head; on a successful read, down-mix by
channel averaging, resample to the output rate and enqueue (`put_nowait`,
dropped silently when the queue is full — not distinguished here); on a
read error (`readResult = none`), re-check the stop flag: terminate if it
is set, otherwise swallow the error and retry. -/
def micReaderStep (stop_at_head stop_at_error : Bool) (readResult : Option (List ℤ))
    (channels mic_rate out_rate : ℕ) : ReaderOutcome :=
  if stop_at_head then ReaderOutcome.terminated
  else
    match readResult with
    | some samples =>
      ReaderOutcome.enqueued (resample_simple (to_mono samples channels false) mic_rate out_rate)
    | none =>
      if stop_at_error then ReaderOutcome.terminated else ReaderOutcome.retried

/-- One iteration of `loopback_reader_thread` (wasapi.py lines 391-403):
as `micReaderStep` but the down-mix keeps only the left channel and no
resampling is performed. -/
def loopbackReaderStep (stop_at_head stop_at_error : Bool) (readResult : Option (List ℤ))
    (channels : ℕ) : ReaderOutcome :=
  if stop_at_head then ReaderOutcome.terminated
  else
    match readResult with
    | some samples => ReaderOutcome.enqueued (to_mono samples channels true)
    | none =>
      if stop_at_error then ReaderOutcome.terminated else ReaderOutcome.retried

/-- C4: `resample(x, r, r) = x` for every `x`, `r`, and resampling an empty
input returns the empty sequence, for any pair of rates — the no-op fast
path of `resample_simple` (wasapi.py line 331). -/
theorem C4_resample_identity (x : List ℤ) (r r1 r2 : ℕ) :
    resample_simple x r r = x ∧ resample_simple [] r1 r2 = [] := by
  constructor
  · simp [resample_simple]
  · unfold resample_simple
    rw [if_pos (Or.inr rfl)]

/-- Helper for C5: the output length of `resample_simple` is exactly
`⌊len·to/from⌋` whenever both rates are positive. -/
theorem resample_simple_length (x : List ℤ) (r1 r2 : ℕ) (h1 : 0 < r1) (h2 : 0 < r2) :
    ((resample_simple x r1 r2).length : ℤ) = ⌊((x.length : ℚ) * (r2 : ℚ)) / (r1 : ℚ)⌋ := by
  have hr1 : ((r1 : ℚ)) ≠ 0 := by exact_mod_cast Nat.pos_iff_ne_zero.mp h1
  unfold resample_simple
  by_cases heq : r1 = r2 ∨ x = []
  · rw [if_pos heq]
    rcases heq with heq | heq
    · subst heq
      rw [mul_div_assoc, div_self hr1, mul_one, Int.floor_natCast]
    · subst heq
      simp
  · rw [if_neg heq]
    push_neg at heq
    have hratio : (x.length : ℚ) * ((r2 : ℚ) / (r1 : ℚ)) = ((x.length : ℚ) * (r2 : ℚ)) / (r1 : ℚ) := by
      ring
    have hnonneg : (0 : ℚ) ≤ (x.length : ℚ) * ((r2 : ℚ) / (r1 : ℚ)) := by
      positivity
    have hfl : (0 : ℤ) ≤ ⌊(x.length : ℚ) * ((r2 : ℚ) / (r1 : ℚ))⌋ :=
      Int.floor_nonneg.mpr hnonneg
    by_cases hz : (⌊(x.length : ℚ) * ((r2 : ℚ) / (r1 : ℚ))⌋).toNat = 0
    · rw [if_pos hz]
      have : ⌊(x.length : ℚ) * ((r2 : ℚ) / (r1 : ℚ))⌋ = 0 := by omega
      simp [← hratio, this]
    · rw [if_neg hz]
      rw [List.length_map, List.length_range, ← hratio]
      exact Int.toNat_of_nonneg hfl

/-- C5: for positive rates the length of the resampled sequence equals
`⌊len(x)·r2/r1⌋` to within ±1 (in fact exactly, by
`resample_simple_length`). -/
theorem C5_resample_length (x : List ℤ) (r1 r2 : ℕ) (h1 : 0 < r1) (h2 : 0 < r2) :
    (((resample_simple x r1 r2).length : ℤ) - ⌊((x.length : ℚ) * (r2 : ℚ)) / (r1 : ℚ)⌋).natAbs ≤ 1 := by
  rw [resample_simple_length x r1 r2 h1 h2]
  simp

/-- Witness for C5 at `x = [10, 20, 30]`, `r1 = 3`, `r2 = 2`. -/
theorem C5_witness :
    0 < 3 ∧ 0 < 2 ∧
      ((((resample_simple [10, 20, 30] 3 2).length : ℤ) -
        ⌊((([10, 20, 30] : List ℤ).length : ℚ) * ((2 : ℕ) : ℚ)) / ((3 : ℕ) : ℚ)⌋).natAbs ≤ 1) :=
  ⟨by decide, by decide, C5_resample_length [10, 20, 30] 3 2 (by decide) (by decide)⟩

/-- Truncation toward zero stays inside any symmetric-around-zero interval
containing its argument, in particular the 16-bit range. -/
theorem truncQ_range (q : ℚ) (h1 : -32768 ≤ q) (h2 : q ≤ 32767) :
    -32768 ≤ truncQ q ∧ truncQ q ≤ 32767 := by
  have hceil_lo : (-32768 : ℤ) = ⌈(-32768 : ℚ)⌉ := by
    rw [show ((-32768 : ℚ)) = ((-32768 : ℤ) : ℚ) by norm_num, Int.ceil_intCast]
  have hfloor_hi : ⌊(32767 : ℚ)⌋ = 32767 := by
    rw [show ((32767 : ℚ)) = ((32767 : ℤ) : ℚ) by norm_num, Int.floor_intCast]
  unfold truncQ
  split
  · rename_i hneg
    refine ⟨hceil_lo ▸ Int.ceil_le_ceil h1, le_trans (Int.ceil_le_ceil (le_of_lt hneg)) ?_⟩
    rw [Int.ceil_zero]
    norm_num
  · rename_i hpos
    push_neg at hpos
    refine ⟨le_trans (by norm_num) (Int.floor_nonneg.mpr hpos), ?_⟩
    exact hfloor_hi ▸ Int.floor_le_floor h2

/-- Every sample produced by `gainSample` lies in the signed 16-bit
range, for any gain. -/
theorem gainSample_range (g : ℚ) (s : ℤ) :
    -32768 ≤ gainSample g s ∧ gainSample g s ≤ 32767 := by
  unfold gainSample
  dsimp only
  split
  · exact ⟨by norm_num, le_refl _⟩
  · split
    · exact ⟨le_refl _, by norm_num⟩
    · rename_i hhi hlo
      push_neg at hhi hlo
      exact truncQ_range _ hlo hhi

/-- Gain application preserves the chunk length. -/
theorem apply_gain_length (samples : List ℤ) (g : ℚ) :
    (apply_gain samples g).length = samples.length := by
  simp [apply_gain]

/-- Clamping lands in the signed 16-bit range. -/
theorem clamp16_range (s : ℤ) : -32768 ≤ clamp16 s ∧ clamp16 s ≤ 32767 := by
  unfold clamp16
  exact ⟨le_max_left _ _, max_le (by norm_num) (min_le_left _ _)⟩

/-- The interleaving loop emits exactly two samples per index, hence
`2 * chunk_size` samples in either output mode. -/
theorem interleaveOutput_length (mic loop : List ℤ) (n : ℕ) (split : Bool) (w : ℚ) :
    (interleaveOutput mic loop n split w).length = 2 * n := by
  induction n with
  | zero => rfl
  | succ k ih =>
    unfold interleaveOutput at ih ⊢
    rw [List.range_succ, List.flatMap_append, List.length_append, ih]
    cases split <;> simp <;> omega

/-- The clamped output frame has exactly `2 * chunk_size` samples. -/
theorem interleaveClamped_length (mic loop : List ℤ) (n : ℕ) (split : Bool) (w : ℚ) :
    (interleaveClamped mic loop n split w).length = 2 * n := by
  unfold interleaveClamped
  rw [List.length_map, interleaveOutput_length]

/-- The mic gain stage preserves the chunk length. -/
theorem micGainStage_length (hist : List ℚ) (chunk : List ℤ) (g : ℚ) :
    (micGainStage hist chunk g).length = chunk.length := by
  unfold micGainStage
  split
  · rfl
  · dsimp only
    split
    · exact apply_gain_length _ _
    · rfl

/-- The loopback gain stage preserves the chunk length. -/
theorem loopbackGainStage_length (hist : List ℚ) (chunk : List ℤ) (g : ℚ) :
    (loopbackGainStage hist chunk g).length = chunk.length := by
  unfold loopbackGainStage
  split
  · rfl
  · dsimp only
    split
    · exact apply_gain_length _ _
    · rfl

/-- C3: after gain application (`apply_gain`, any gain ≥ 0, any input) and
after the final clamp of the assembled frame (either stereo-split or mixed
mode, any chunks), every output sample lies in `[-32768, 32767]`; Python
integers cannot wrap, and the clamp guarantees `struct.pack('<…h', …)`
never sees an out-of-range value. -/
theorem C3_output_in_range (g : ℚ) (samples mic_chunk loopback_chunk : List ℤ)
    (n : ℕ) (split : Bool) (w : ℚ) (_hg : 0 ≤ g) :
    (∀ x ∈ apply_gain samples g, -32768 ≤ x ∧ x ≤ 32767) ∧
      (∀ x ∈ interleaveClamped mic_chunk loopback_chunk n split w,
        -32768 ≤ x ∧ x ≤ 32767) := by
  constructor
  · intro x hx
    rcases List.mem_map.mp hx with ⟨s, _, rfl⟩
    exact gainSample_range g s
  · intro x hx
    rcases List.mem_map.mp hx with ⟨s, _, rfl⟩
    exact clamp16_range s

/-- Witness for C3 with gain `1`, a one-sample chunk, and a two-sample
frame in stereo-split mode. -/
theorem C3_witness :
    (0 : ℚ) ≤ 1 ∧
      ((∀ x ∈ apply_gain [40000] 1, -32768 ≤ x ∧ x ≤ 32767) ∧
        (∀ x ∈ interleaveClamped [40000] [-50000] 1 true (1 / 2),
          -32768 ≤ x ∧ x ≤ 32767)) :=
  ⟨by norm_num, C3_output_in_range 1 [40000] [40000] [-50000] 1 true (1 / 2) (by norm_num)⟩

/-- Shape of the mic slice: the first `chunk_size` buffer samples followed
by exactly the missing number of zeros. -/
theorem micSlicePad_eq (mic_buffer : List ℤ) (chunk_size : ℕ) :
    (micSlicePad mic_buffer chunk_size).1 =
      mic_buffer.take chunk_size ++
        List.replicate (chunk_size - mic_buffer.length) 0 := by
  unfold micSlicePad
  split
  · rename_i hle
    rw [Nat.sub_eq_zero_of_le hle, List.replicate_zero, List.append_nil]
  · rename_i hgt
    push_neg at hgt
    rw [List.take_of_length_le (le_of_lt hgt)]

/-- C1: whenever the loopback accumulation buffer holds `N` samples and the
mic accumulation buffer holds `M < N` samples, the assembled cycle emits a
frame of exactly `N` stereo sample-pairs (`2·N` samples), and the mic slice
entering AEC/gain is the whole mic buffer followed by `N - M` zeros. -/
theorem C1_assembly_pads_mic (sq : ℚ → ℚ) (cancel : List ℤ → List ℤ → List ℤ)
    (cfg : MixConfig) (st : MixState)
    (h : st.mic_buffer.length < st.loopback_buffer.length) :
    (recordingCycle sq cancel cfg st).map (fun p => p.1.length) =
        some (2 * st.loopback_buffer.length) ∧
      (micSlicePad st.mic_buffer st.loopback_buffer.length).1 =
        st.mic_buffer ++
          List.replicate (st.loopback_buffer.length - st.mic_buffer.length) 0 := by
  have hne : st.loopback_buffer ≠ [] := by
    intro he
    rw [he] at h
    simp at h
  constructor
  · unfold recordingCycle
    rw [if_neg (by simpa using hne)]
    dsimp only
    rw [Option.map_some']
    rw [interleaveClamped_length]
  · rw [micSlicePad_eq, List.take_of_length_le (le_of_lt h)]

/-- Witness for C1: loopback buffer `[7, 8]` (so `N = 2`), mic buffer `[5]`
(so `M = 1 < 2`), no AEC, stereo split. -/
theorem C1_witness :
    ([5] : List ℤ).length < ([7, 8] : List ℤ).length ∧
      ((recordingCycle (fun q => q) (fun _ _ => [])
            ⟨true, 1 / 2, 1, 1⟩ ⟨[5], [7, 8], [], [], none⟩).map (fun p => p.1.length) =
          some (2 * 2) ∧
        (micSlicePad [5] 2).1 = [5] ++ List.replicate 1 0) :=
  ⟨by decide,
    C1_assembly_pads_mic (fun q => q) (fun _ _ => []) ⟨true, 1 / 2, 1, 1⟩
      ⟨[5], [7, 8], [], [], none⟩ (by decide)⟩

/-- A chunk RMS at or below the noise floor leaves the history untouched. -/
theorem updateHistory_not_exceed (hist : List ℚ) (rms floor_val : ℚ)
    (h : ¬floor_val < rms) : updateHistory hist rms floor_val = hist := by
  unfold updateHistory
  rw [if_neg h]

/-- A chunk RMS above the noise floor is appended (it becomes the newest,
last entry of the history). -/
theorem updateHistory_appends (hist : List ℚ) (rms floor_val : ℚ)
    (h : floor_val < rms) :
    (updateHistory hist rms floor_val).getLast? = some rms := by
  unfold updateHistory
  rw [if_pos h]
  dsimp only
  split
  · rename_i hlen
    have h1 : 1 ≤ hist.length := by
      rw [List.length_append, List.length_singleton] at hlen
      unfold agc_window at hlen
      omega
    rw [List.drop_append_of_le_length h1, List.getLast?_concat]
  · exact List.getLast?_concat _

/-- The history capacity invariant: starting from at most `agc_window`
entries, the update leaves at most `agc_window` entries. -/
theorem updateHistory_capacity (hist : List ℚ) (rms floor_val : ℚ)
    (h : hist.length ≤ agc_window) :
    (updateHistory hist rms floor_val).length ≤ agc_window := by
  unfold updateHistory
  split
  · dsimp only
    split
    · rename_i hlen
      rw [List.length_drop, List.length_append, List.length_singleton]
      omega
    · rename_i hlen
      push_neg at hlen
      exact hlen
  · exact h

/-- On overflow (history already full and a new RMS admitted) the oldest
entry is evicted: the result is the tail of the old history plus the new
entry at the end. -/
theorem updateHistory_evicts (hist : List ℚ) (rms floor_val : ℚ)
    (hfull : hist.length = agc_window) (h : floor_val < rms) :
    updateHistory hist rms floor_val = hist.drop 1 ++ [rms] := by
  unfold updateHistory
  rw [if_pos h]
  dsimp only
  rw [if_pos (by rw [List.length_append, List.length_singleton, hfull]; omega)]
  rw [List.drop_append_of_le_length (by rw [hfull]; unfold agc_window; omega)]

/-- An all-zero (pure silence) chunk has RMS `0` whenever the square root
fixes `0`. -/
theorem calc_rms_silence (sq : ℚ → ℚ) (k : ℕ) (h0 : sq 0 = 0) :
    calc_rms sq (List.replicate k 0) = 0 := by
  unfold calc_rms
  cases k with
  | zero => simp
  | succ m =>
    rw [if_neg (by simp)]
    have : (List.replicate (m + 1) (0 : ℤ)).map (fun (s : ℤ) => (s : ℚ) * (s : ℚ)) =
        List.replicate (m + 1) 0 := by
      rw [List.map_replicate]
      norm_num
    rw [this, List.sum_replicate, smul_zero, zero_div, h0]

/-- C7: the per-cycle RMS-history discipline — (i) an RMS at or below the
noise floor leaves the history unchanged; (ii) an RMS above the floor is
appended as the newest entry; (iii) the history never grows beyond
`agc_window = 50` entries; (iv) on overflow the oldest entry is evicted;
(v) a pure-silence chunk has RMS `0`, updates neither the mic history
(floor `50`) nor the loopback history (floor `100`), and hence leaves the
gain stage's behaviour on any chunk exactly as before. -/
theorem C7_history_discipline (hist : List ℚ) (rms floor_val : ℚ) (k : ℕ)
    (chunk : List ℤ) (g : ℚ) (sq : ℚ → ℚ) :
    (¬floor_val < rms → updateHistory hist rms floor_val = hist) ∧
      (floor_val < rms → (updateHistory hist rms floor_val).getLast? = some rms) ∧
      (hist.length ≤ agc_window → (updateHistory hist rms floor_val).length ≤ agc_window) ∧
      (hist.length = agc_window → floor_val < rms →
        updateHistory hist rms floor_val = hist.drop 1 ++ [rms]) ∧
      (sq 0 = 0 →
        calc_rms sq (List.replicate k 0) = 0 ∧
          updateHistory hist (calc_rms sq (List.replicate k 0)) 50 = hist ∧
          updateHistory hist (calc_rms sq (List.replicate k 0)) 100 = hist ∧
          micGainStage (updateHistory hist (calc_rms sq (List.replicate k 0)) 50) chunk g =
            micGainStage hist chunk g) := by
  refine ⟨updateHistory_not_exceed hist rms floor_val,
    updateHistory_appends hist rms floor_val,
    updateHistory_capacity hist rms floor_val,
    updateHistory_evicts hist rms floor_val, ?_⟩
  intro h0
  have hz := calc_rms_silence sq k h0
  have h50 : updateHistory hist (calc_rms sq (List.replicate k 0)) 50 = hist := by
    apply updateHistory_not_exceed
    rw [hz]
    norm_num
  have h100 : updateHistory hist (calc_rms sq (List.replicate k 0)) 100 = hist := by
    apply updateHistory_not_exceed
    rw [hz]
    norm_num
  exact ⟨hz, h50, h100, by rw [h50]⟩

/-- Witness for C7: a below-floor RMS (`40 ≤ 50`) is discarded, an
above-floor RMS is appended, capacity is preserved, a full 50-entry
history evicts its oldest entry, and silence leaves everything alone. -/
theorem C7_witness :
    (¬(50 : ℚ) < 40 → updateHistory [60] 40 50 = [60]) ∧
      ((50 : ℚ) < 70 → (updateHistory [60] 70 50).getLast? = some 70) ∧
      (([60] : List ℚ).length ≤ agc_window →
        (updateHistory [60] 70 50).length ≤ agc_window) ∧
      ((List.replicate agc_window (60 : ℚ)).length = agc_window → (50 : ℚ) < 70 →
        updateHistory (List.replicate agc_window 60) 70 50 =
          (List.replicate agc_window (60 : ℚ)).drop 1 ++ [70]) ∧
      (id (0 : ℚ) = 0 →
        calc_rms id (List.replicate 3 0) = 0 ∧
          updateHistory [60] (calc_rms id (List.replicate 3 0)) 50 = [60] ∧
          updateHistory [60] (calc_rms id (List.replicate 3 0)) 100 = [60] ∧
          micGainStage (updateHistory [60] (calc_rms id (List.replicate 3 0)) 50) [9] 2 =
            micGainStage [60] [9] 2) :=
  ⟨(C7_history_discipline [60] 40 50 3 [9] 2 id).1,
    (C7_history_discipline [60] 70 50 3 [9] 2 id).2.1,
    (C7_history_discipline [60] 70 50 3 [9] 2 id).2.2.1,
    (C7_history_discipline (List.replicate agc_window 60) 70 50 3 [9] 2 id).2.2.2.1,
    (C7_history_discipline [60] 0 50 3 [9] 2 id).2.2.2.2⟩

/-- C6 amended: when a source's RMS history is empty the gain stage is
skipped entirely — the slice passes through unchanged; in particular the
user-supplied gain multiplier is not applied. -/
theorem C6_amended_empty_history_skips_gain (chunk : List ℤ) (g : ℚ) :
    micGainStage [] chunk g = chunk ∧ loopbackGainStage [] chunk g = chunk := by
  constructor
  · simp [micGainStage]
  · simp [loopbackGainStage]

/-- C6 counterexample: one cycle with empty histories, mic user gain `2`,
mic buffer and loopback buffer both `[40, 40]` (chunk RMS `√1600 = 40`, at
or below both noise floors, so both histories stay empty).  The square
root is instantiated at exactly the values the source's float computation
takes here (`√1600 = 40`).  The emitted frame is `[40, 40, 40, 40]` — the
mic samples are NOT scaled by the user multiplier `2`; the claim's
prediction (`estimatedGain 1.0 × userGain 2` applied to each mic sample,
giving `[80, 40, 80, 40]`) is false, as `apply_gain [40, 40] 2 = [80, 80]`
shows what that scaling would have produced. -/
theorem C6_counterexample :
    (recordingCycle (fun q => if q = 1600 then 40 else 0) (fun _ _ => [])
          ⟨true, 1 / 2, 2, 1⟩ ⟨[40, 40], [40, 40], [], [], none⟩).map Prod.fst =
        some [40, 40, 40, 40] ∧
      ¬((recordingCycle (fun q => if q = 1600 then 40 else 0) (fun _ _ => [])
            ⟨true, 1 / 2, 2, 1⟩ ⟨[40, 40], [40, 40], [], [], none⟩).map Prod.fst =
          some [80, 40, 80, 40]) ∧
      apply_gain [40, 40] 2 = [80, 80] := by
  have heval :
      (recordingCycle (fun q => if q = 1600 then 40 else 0) (fun _ _ => [])
          ⟨true, 1 / 2, 2, 1⟩ ⟨[40, 40], [40, 40], [], [], none⟩).map Prod.fst =
        some [40, 40, 40, 40] := by
    norm_num [recordingCycle, micSlicePad, calc_rms, updateHistory, micGainStage,
      loopbackGainStage, interleaveClamped, interleaveOutput, clamp16, truncQ,
      List.range_succ, List.flatMap_append, List.flatMap_cons, List.flatMap_nil]
  refine ⟨heval, ?_, ?_⟩
  · rw [heval]
    simp
  · norm_num [apply_gain, gainSample, truncQ]

/-- C2 counterexample: a cycle with mic native rate 16000 Hz and output
rate 48000 Hz (witnessed by the mic worker's resampling on those rates),
mic buffer `[0, 3]`, loopback buffer `[0, 0]`, no AEC, empty histories (at
these quiet levels the source's float RMS values stay below both noise
floors, so the instantiation `sq = fun _ => 0` takes the same branches).
The assembly phase emits the mic slice values unchanged —
`[0, 0, 3, 0]` — whereas resampling the slice from 16000 to 48000, as the
claim says the assembly phase does, would have produced the mic channel
`[0, 1]` of `[0, 0, 1, 0]`: the slice differs from its own resample, so
the mic chunk entering AEC/gain is not the resampled slice. -/
theorem C2_counterexample :
    (recordingCycle (fun _ => 0) (fun _ _ => [])
          ⟨true, 1 / 2, 1, 1⟩ ⟨[0, 3], [0, 0], [], [], none⟩).map Prod.fst =
        some [0, 0, 3, 0] ∧
      resample_simple [0, 3] 16000 48000 = [0, 1, 2, 3, 3, 3] ∧
      (micSlicePad [0, 3] 2).1 ≠
        resample_simple ((micSlicePad [0, 3] 2).1) 16000 48000 := by
  have h6 : Int.toNat 6 = 6 := by simp
  have hres : resample_simple [0, 3] 16000 48000 = [0, 1, 2, 3, 3, 3] := by
    norm_num [resample_simple, truncQ, h6, List.range_succ,
      List.map_append, List.map_cons, List.map_nil, List.getD]
    decide
  refine ⟨?_, hres, ?_⟩
  · norm_num [recordingCycle, micSlicePad, calc_rms, updateHistory, micGainStage,
      loopbackGainStage, interleaveClamped, interleaveOutput, clamp16, truncQ,
      List.range_succ, List.flatMap_append, List.flatMap_cons, List.flatMap_nil]
  · have hsp : (micSlicePad [0, 3] 2).1 = [0, 3] := by
      norm_num [micSlicePad]
    rw [hsp, hres]
    simp

/-- C2 amended: the mic stream is resampled from its native rate to the
output rate inside the mic Capture Worker (after the channel-averaging
mono down-mix, before enqueueing), so the mic accumulation buffer is
already at the output rate; the assembly phase applies no resampling to
either slice — the mic chunk entering AEC/gain is exactly the sliced
(zero-padded) accumulation-buffer prefix, and the loopback worker enqueues
its left-channel down-mix without resampling. -/
theorem C2_amended_resample_in_worker (samples : List ℤ)
    (channels mic_rate out_rate : ℕ) (mbuf : List ℤ) (n : ℕ) :
    micReaderStep false false (some samples) channels mic_rate out_rate =
        ReaderOutcome.enqueued
          (resample_simple (to_mono samples channels false) mic_rate out_rate) ∧
      (micSlicePad mbuf n).1 = mbuf.take n ++ List.replicate (n - mbuf.length) 0 ∧
      loopbackReaderStep false false (some samples) channels =
        ReaderOutcome.enqueued (to_mono samples channels true) :=
  ⟨rfl, micSlicePad_eq mbuf n, rfl⟩

/-- C9 amended: in both Capture Workers, a read error observed after the
cancellation signal is set ends the loop silently, and a read error
observed before cancellation is swallowed and the read retried — it never
propagates out of the worker; observing the stop flag at the loop head
also terminates the loop. -/
theorem C9_amended_error_retry (readResult : Option (List ℤ)) (b : Bool)
    (channels mic_rate out_rate channels2 : ℕ) :
    micReaderStep true b readResult channels mic_rate out_rate =
        ReaderOutcome.terminated ∧
      micReaderStep false true none channels mic_rate out_rate =
        ReaderOutcome.terminated ∧
      micReaderStep false false none channels mic_rate out_rate =
        ReaderOutcome.retried ∧
      loopbackReaderStep true b readResult channels2 = ReaderOutcome.terminated ∧
      loopbackReaderStep false true none channels2 = ReaderOutcome.terminated ∧
      loopbackReaderStep false false none channels2 = ReaderOutcome.retried :=
  ⟨rfl, rfl, rfl, rfl, rfl, rfl⟩

/-- C9 counterexample: a read error occurring before cancellation (stop
flag unset at the loop head and when the error is handled) makes the
worker retry the read; it is not allowed to propagate, contradicting the
claim that it surfaces out of the worker. -/
theorem C9_counterexample :
    micReaderStep false false none 1 16000 48000 = ReaderOutcome.retried ∧
      micReaderStep false false none 1 16000 48000 ≠ ReaderOutcome.propagated ∧
      loopbackReaderStep false false none 2 = ReaderOutcome.retried ∧
      loopbackReaderStep false false none 2 ≠ ReaderOutcome.propagated := by
  refine ⟨rfl, ?_, rfl, ?_⟩ <;> decide

/-- When fewer than `frame_size` samples are available in either buffer
(or `frame_size = 0`), the frame loop does not run at all. -/
theorem processFrames_not_run (cancel : List ℤ → List ℤ → List ℤ) (fs : ℕ)
    (mic ref out : List ℤ) (n : ℕ)
    (h : ¬(0 < fs ∧ fs ≤ mic.length ∧ fs ≤ ref.length)) :
    processFrames cancel fs mic ref out n = (mic, ref, out, n) := by
  rw [processFrames]
  exact dif_neg h

/-- The ghost invocation counter never decreases across the frame loop. -/
theorem processFrames_count (cancel : List ℤ → List ℤ → List ℤ) (fs : ℕ) :
    ∀ (L : ℕ) (mic ref out : List ℤ) (n : ℕ), mic.length ≤ L →
      n ≤ (processFrames cancel fs mic ref out n).2.2.2 := by
  intro L
  induction L with
  | zero =>
    intro mic ref out n hL
    rw [processFrames_not_run]
    intro ⟨hfs, hmic, _⟩
    omega
  | succ K ih =>
    intro mic ref out n hL
    rw [processFrames]
    split
    · rename_i h
      refine le_trans (Nat.le_succ n) (ih _ _ _ _ ?_)
      simp only [List.length_drop]
      omega
    · exact le_refl n

/-- A `process_samples` call that leaves both appended buffers below one
frame returns the (empty, between calls) output accumulator, appends both
inputs to the leftovers, and never invokes the service. -/
theorem process_samples_below (cancel : List ℤ → List ℤ → List ℤ)
    (st : AECState) (micIn refIn : List ℤ)
    (h : (st.mic_buffer ++ micIn).length < st.frame_size ∨
      (st.ref_buffer ++ refIn).length < st.frame_size) :
    process_samples cancel st micIn refIn =
      (st.output_buffer,
        ⟨st.frame_size, st.mic_buffer ++ micIn, st.ref_buffer ++ refIn, []⟩, 0) := by
  unfold process_samples
  rw [processFrames_not_run]
  intro ⟨_, hmic, href⟩
  rcases h with h | h
  · omega
  · omega

/-- Along any call sequence in which every call leaves both accumulated
leftover buffers below one frame, every call returns the empty result and
the service is never invoked (assuming the output accumulator starts
empty, which `process_samples` re-establishes after every call). -/
theorem runCalls_below (cancel : List ℤ → List ℤ → List ℤ) :
    ∀ (inputs : List (List ℤ × List ℤ)) (st : AECState),
      st.output_buffer = [] →
      stepsBelow st.frame_size st.mic_buffer st.ref_buffer inputs = true →
      (∀ o ∈ (runCalls cancel st inputs).1, o = []) ∧
        (runCalls cancel st inputs).2.2 = 0 := by
  intro inputs
  induction inputs with
  | nil =>
    intro st hout hsteps
    exact ⟨by intro o ho; simp [runCalls] at ho, rfl⟩
  | cons p rest ih =>
    intro st hout hsteps
    obtain ⟨m, r⟩ := p
    unfold stepsBelow at hsteps
    split at hsteps
    · rename_i hbelow
      have hcall := process_samples_below cancel st m r (Or.inl hbelow.1)
      have hrest := ih ⟨st.frame_size, st.mic_buffer ++ m, st.ref_buffer ++ r, []⟩
        rfl hsteps
      unfold runCalls
      rw [hcall]
      dsimp only
      constructor
      · intro o ho
        rcases List.mem_cons.mp ho with ho | ho
        · rw [ho, hout]
        · exact hrest.1 o ho
      · rw [hrest.2]
    · exact absurd hsteps (by simp)

/-- C8: (i) along any call sequence of the echo-canceller adapter in which
every call leaves both accumulated leftover buffers strictly below one
algorithm frame, the underlying service is never invoked and every call
returns the empty result; (ii) as soon as one call makes both leftover
buffers reach `frame_size` samples, the service is invoked (at least
once) during that call. -/
theorem C8_adapter_buffering (cancel : List ℤ → List ℤ → List ℤ)
    (st : AECState) (micIn refIn : List ℤ) (inputs : List (List ℤ × List ℤ)) :
    (st.output_buffer = [] →
        stepsBelow st.frame_size st.mic_buffer st.ref_buffer inputs = true →
        (∀ o ∈ (runCalls cancel st inputs).1, o = []) ∧
          (runCalls cancel st inputs).2.2 = 0) ∧
      (0 < st.frame_size →
        st.frame_size ≤ (st.mic_buffer ++ micIn).length →
        st.frame_size ≤ (st.ref_buffer ++ refIn).length →
        1 ≤ (process_samples cancel st micIn refIn).2.2) := by
  constructor
  · exact runCalls_below cancel inputs st
  · intro hfs hmic href
    unfold process_samples
    rw [processFrames]
    rw [dif_pos ⟨hfs, hmic, href⟩]
    exact processFrames_count cancel st.frame_size _ _ _ _ 1 (le_refl _)

/-- Witness for C8: frame size 4; two short calls (operands of length 1)
never reach a frame and invoke nothing; one call delivering 4 samples to
each buffer invokes the service. -/
theorem C8_witness :
    ((runCalls (fun m _ => m) ⟨4, [], [], []⟩ [([1], [2]), ([3], [4])]).2.2 = 0) ∧
      (1 ≤ (process_samples (fun m _ => m) ⟨4, [], [], []⟩
        [1, 2, 3, 4] [5, 6, 7, 8]).2.2) :=
  ⟨((C8_adapter_buffering (fun m _ => m) ⟨4, [], [], []⟩ [] []
      [([1], [2]), ([3], [4])]).1 rfl (by decide)).2,
    (C8_adapter_buffering (fun m _ => m) ⟨4, [], [], []⟩ [1, 2, 3, 4] [5, 6, 7, 8]
      []).2 (by decide) (by decide) (by decide)⟩

/-- In stereo-split mode the left sample of pair `i` of the interleaved
(unclamped) frame is `mic_chunk[i]`, read as `0` past the end of the mic
chunk. -/
theorem interleaveOutput_left (mic loop : List ℤ) (w : ℚ) :
    ∀ (n i : ℕ), i < n →
      (interleaveOutput mic loop n true w)[2 * i]? = some (mic.getD i 0) := by
  intro n
  induction n with
  | zero => omega
  | succ k ih =>
    intro i hi
    unfold interleaveOutput at ih ⊢
    rw [List.range_succ, List.flatMap_append]
    by_cases hik : i < k
    · rw [List.getElem?_append_left]
      · exact ih i hik
      · have hlen := interleaveOutput_length mic loop k true w
        unfold interleaveOutput at hlen
        rw [hlen]
        omega
    · have hieq : i = k := by omega
      subst hieq
      have hlen := interleaveOutput_length mic loop i true w
      unfold interleaveOutput at hlen
      rw [List.getElem?_append_right (by rw [hlen])]
      rw [hlen, Nat.sub_self]
      simp

/-- In stereo-split mode the left sample of pair `i` of the clamped frame
is `clamp16 (mic_chunk.getD i 0)`. -/
theorem interleaveClamped_left (mic loop : List ℤ) (w : ℚ) (n i : ℕ) (h : i < n) :
    (interleaveClamped mic loop n true w)[2 * i]? = some (clamp16 (mic.getD i 0)) := by
  unfold interleaveClamped
  rw [List.getElem?_map, interleaveOutput_left mic loop w n i h]
  rfl

/-- C10: with echo cancellation enabled, an assembly cycle still emits
exactly `chunk_size = len(loopback_buffer)` stereo sample-pairs — the
frame length is governed solely by the loopback slice — and, in
stereo-split mode, every mic position at or past the length of the
adapter's (possibly shorter) output is emitted as `0`. -/
theorem C10_aec_short_chunk_zero_fill (sq : ℚ → ℚ)
    (cancel : List ℤ → List ℤ → List ℤ) (cfg : MixConfig) (st : MixState)
    (a : AECState) (hne : st.loopback_buffer ≠ []) (haec : st.aec = some a) :
    (((recordingCycle sq cancel cfg st).map Prod.fst).getD []).length =
        2 * st.loopback_buffer.length ∧
      (cfg.stereo_split = true →
        ∀ i,
          (process_samples cancel a
            (micSlicePad st.mic_buffer st.loopback_buffer.length).1
            st.loopback_buffer).1.length ≤ i →
          i < st.loopback_buffer.length →
          (((recordingCycle sq cancel cfg st).map Prod.fst).getD [])[2 * i]? =
            some 0) := by
  unfold recordingCycle
  rw [if_neg (by simpa using hne), haec]
  dsimp only
  constructor
  · rw [Option.map_some']
    exact interleaveClamped_length _ _ _ _ _
  · intro hsplit i hlen hi
    rw [Option.map_some', Option.getD_some, hsplit]
    rw [interleaveClamped_left _ _ _ _ _ hi]
    have hmlen :
        (micGainStage
          (updateHistory st.mic_rms_history
            (calc_rms sq
              (process_samples cancel a
                (micSlicePad st.mic_buffer st.loopback_buffer.length).1
                st.loopback_buffer).1) 50)
          (process_samples cancel a
            (micSlicePad st.mic_buffer st.loopback_buffer.length).1
            st.loopback_buffer).1 cfg.mic_gain).length ≤ i := by
      rw [micGainStage_length]
      exact hlen
    rw [List.getD_eq_default _ _ hmlen]
    rfl

/-- Witness for C10: AEC enabled with frame size 4 and empty leftover
buffers, loopback `[7, 8]`, mic `[1]`; the adapter consumes the inputs
without completing a frame, returns `[]`, and the emitted frame is two
pairs whose mic positions are zero-filled. -/
theorem C10_witness :
    ([7, 8] : List ℤ) ≠ [] ∧
      ((((recordingCycle (fun q => q) (fun _ _ => []) ⟨true, 1 / 2, 1, 1⟩
              ⟨[1], [7, 8], [], [], some ⟨4, [], [], []⟩⟩).map Prod.fst).getD
            []).length = 2 * ([7, 8] : List ℤ).length ∧
        ((true : Bool) = true →
          ∀ i,
            (process_samples (fun _ _ => []) ⟨4, [], [], []⟩
              (micSlicePad [1] ([7, 8] : List ℤ).length).1 [7, 8]).1.length ≤ i →
            i < ([7, 8] : List ℤ).length →
            (((recordingCycle (fun q => q) (fun _ _ => []) ⟨true, 1 / 2, 1, 1⟩
                  ⟨[1], [7, 8], [], [], some ⟨4, [], [], []⟩⟩).map Prod.fst).getD
                [])[2 * i]? = some 0)) :=
  ⟨by decide,
    C10_aec_short_chunk_zero_fill (fun q => q) (fun _ _ => []) ⟨true, 1 / 2, 1, 1⟩
      ⟨[1], [7, 8], [], [], some ⟨4, [], [], []⟩⟩ ⟨4, [], [], []⟩ (by decide) rfl⟩
